import Mathlib

/-!
Verification of the `pkg/rag` code-indexing module: the chunker
`splitIntoChunks`, the content hasher `generateID`, the file filter
`isCodeFile`, the orchestration `ProcessFile` / `IndexDirectory`, the
search mapping `Search`, and the embedding client `GenerateEmbeddings`.

Go strings are modelled as `List Char`.  Sizes and lengths are `Nat`:
the Go code compares non-negative accumulated sizes against a chunk
size that every property under consideration takes to be positive, and
no quantity here can approach the 64-bit overflow boundary of a Go
`int` (all sizes are bounded by the length of an in-memory string).
-/

namespace Rag

/-- Go `strings.Split(text, "\n")`: the segments of `text` between
newline characters.  `Split` never returns an empty slice; splitting
the empty string yields one empty segment. -/
def splitOnNl : List Char → List (List Char)
  | [] => [[]]
  | c :: rest =>
    if c = '\n' then [] :: splitOnNl rest
    else
      match splitOnNl rest with
      | [] => [[c]]
      | l :: ls => (c :: l) :: ls

/-- The loop of `splitIntoChunks`: walk the lines, carrying the buffer
`currentChunk` and its accumulated size `currentSize`.  Before writing
a line whose size (length plus one for the restored newline) would push
the buffer past `chunkSize`, and the buffer is non-empty, the buffer is
emitted and reset; at the end a non-empty buffer is emitted. -/
def chunkLoop (chunkSize : Nat) : List (List Char) → List Char → Nat → List (List Char)
  | [], currentChunk, _ =>
    if currentChunk.length > 0 then [currentChunk] else []
  | line :: rest, currentChunk, currentSize =>
    let lineSize := line.length + 1
    if currentSize + lineSize > chunkSize ∧ currentSize > 0 then
      currentChunk :: chunkLoop chunkSize rest (line ++ ['\n']) lineSize
    else
      chunkLoop chunkSize rest (currentChunk ++ (line ++ ['\n'])) (currentSize + lineSize)

/-- `splitIntoChunks` from `indexer.go`: split `text` on newlines and
accumulate the lines into chunks of approximately `chunkSize`
characters. -/
def splitIntoChunks (text : List Char) (chunkSize : Nat) : List (List Char) :=
  chunkLoop chunkSize (splitOnNl text) [] 0

/-- Rebuild a buffer from a block of lines: each line followed by the
restored newline, concatenated. -/
def flattenNl (ls : List (List Char)) : List Char :=
  (ls.map (fun l => l ++ ['\n'])).flatten

/-- Accumulated size of a block of lines: each line's length plus one. -/
def sizeNl (ls : List (List Char)) : Nat :=
  (ls.map (fun l => l.length + 1)).sum

/-- Proof companion of `chunkLoop` that tracks blocks of lines instead
of flattened character buffers; `chunkLoop` is its image under
`flattenNl` (`chunkLoop_eq_chunkBlocks`). -/
def chunkBlocks (chunkSize : Nat) :
    List (List Char) → List (List Char) → Nat → List (List (List Char))
  | [], cur, _ =>
    if cur.length > 0 then [cur] else []
  | line :: rest, cur, size =>
    let lineSize := line.length + 1
    if size + lineSize > chunkSize ∧ size > 0 then
      cur :: chunkBlocks chunkSize rest [line] lineSize
    else
      chunkBlocks chunkSize rest (cur ++ [line]) (size + lineSize)

/-! ### Content hasher (`generateID`)

`generateID` computes `hex.EncodeToString(sha256.Sum(path + content))`.
The SHA-256 digest (composed with the injective UTF-8 encoding of the
concatenated string) is abstracted as a parameter `hash` producing a
list of bytes (naturals below 256); the claims about `generateID`
explicitly exclude digest collisions, so they are stated for the
digests the code actually compares, never for a particular digest
function's arithmetic. -/

/-- The sixteen lowercase hexadecimal digits of Go `encoding/hex`
(`const hextable = "0123456789abcdef"`). -/
def hexTable : List Char := "0123456789abcdef".toList

/-- A single hex digit. -/
def hexDigit (n : Nat) : Char := hexTable.getD n '0'

/-- Go `encoding/hex` encodes one byte as high nibble then low nibble
(`hextable[v>>4]`, `hextable[v&0x0f]`); a byte is a natural below 256,
reduced mod 256 where the code relies on the `byte` type. -/
def encodeByte (b : Nat) : List Char := [hexDigit (b % 256 / 16), hexDigit (b % 16)]

/-- `hex.EncodeToString` over a byte slice. -/
def hexEncodeBytes (bs : List Nat) : List Char := (bs.map encodeByte).flatten

/-- `generateID` from `indexer.go`: the hex encoding of the digest of
`filePath + content` (string concatenation, no separator). -/
def generateID (hash : List Char → List Nat) (filePath content : List Char) : List Char :=
  hexEncodeBytes (hash (filePath ++ content))

/-! ### File filter (`isCodeFile`) -/

/-- The loop of Go `filepath.Ext`: scan bytes from the end of the path;
stop with the empty extension at a path separator (`/` on this target),
return the suffix from the final dot if one is found first.  `acc`
carries the already-scanned suffix in original order. -/
def extLoop : List Char → List Char → List Char
  | [], _ => []
  | c :: rest, acc =>
    if c = '/' then []
    else if c = '.' then '.' :: acc
    else extLoop rest (c :: acc)

/-- Go `filepath.Ext(path)`: the suffix beginning at the final dot in
the final path element, empty if there is no dot. -/
def filepathExt (path : List Char) : List Char := extLoop path.reverse []

/-- Go `strings.ToLower` at the character level.  The allow-list below
is pure ASCII, and no simple Unicode lowercase mapping sends a
character outside `A`–`Z` to any ASCII letter occurring in it, so the
ASCII mapping decides allow-list membership exactly as Go's does. -/
def toLowerChar (c : Char) : Char :=
  if 'A' ≤ c ∧ c ≤ 'Z' then Char.ofNat (c.toNat + 32) else c

/-- `strings.ToLower` over a whole string. -/
def toLowerStr (s : List Char) : List Char := s.map toLowerChar

/-- The keys of the `codeExtensions` map literal in `isCodeFile` (every
key is mapped to `true`, so map lookup is membership). -/
def codeExtensions : List (List Char) :=
  [".go".toList, ".py".toList, ".js".toList, ".ts".toList, ".java".toList,
    ".cpp".toList, ".c".toList, ".h".toList, ".hpp".toList, ".rs".toList]

/-- `isCodeFile` from `indexer.go`: lowercase the extension and look it
up in the fixed extension map (a missing key yields the zero value
`false`). -/
def isCodeFile (path : List Char) : Bool :=
  codeExtensions.contains (toLowerStr (filepathExt path))

/-- The spec's fixed allow-list of eligible extensions, written from
the spec's words (`.go .py .js .ts .java .cpp .c .h .hpp .rs`), to be
compared with the source's `codeExtensions`. -/
def specAllowedExtensions : List (List Char) :=
  [".go".toList, ".py".toList, ".js".toList, ".ts".toList, ".java".toList,
    ".cpp".toList, ".c".toList, ".h".toList, ".hpp".toList, ".rs".toList]

/-! ### Indexer orchestration (`ProcessFile`, `IndexDirectory`)

The vector store is external state: it is modelled as a state type `σ`
together with a transition `add` for `store.AddDocuments`, which
returns the store's next state and optionally an error (a failed call
still yields the state the store is left in).  `os.ReadFile` is a
function from paths to contents-or-error. -/

/-- Errors produced by the indexer, mirroring the `fmt.Errorf` wrapping
in `ProcessFile` and the propagation in `IndexDirectory`. -/
inductive IndexErr (ε : Type) where
  | readFailed (path : List Char) (e : ε)
  | addFailed (e : ε)
  | walkFailed (e : ε)
deriving DecidableEq

/-- The chunk metadata map built in `ProcessFile` (keys `file_path`,
`chunk_index`, `total_chunks`, `language`). -/
structure ChunkMeta where
  file_path : List Char
  chunk_index : Nat
  total_chunks : Nat
  language : List Char
deriving DecidableEq

/-- `strings.TrimPrefix(filepath.Ext(filePath), ".")`: `filepath.Ext`
returns either the empty string or a string starting with a dot, whose
dot `TrimPrefix` removes. -/
def languageOf (filePath : List Char) : List Char :=
  match filepathExt filePath with
  | '.' :: rest => rest
  | e => e

/-- The metadata map `ProcessFile` builds for chunk `idx` of
`filePath`. -/
def chunkMeta (filePath : List Char) (idx total : Nat) : ChunkMeta :=
  ⟨filePath, idx, total, languageOf filePath⟩

/-- The chunk loop of `ProcessFile`: submit each chunk (with its
metadata and content-addressed ID) to the store via `add`; the first
failed write is wrapped and returned at once, together with the store
state the failed call left behind. -/
def processChunkList {σ ε : Type} (add : σ → List (List Char) → List ChunkMeta →
      List (List Char) → Option ε × σ)
    (hash : List Char → List Nat) (filePath : List Char) (total : Nat) :
    σ → Nat → List (List Char) → σ × Option (IndexErr ε)
  | s, _, [] => (s, none)
  | s, idx, chunk :: rest =>
    match add s [chunk] [chunkMeta filePath idx total] [generateID hash filePath chunk] with
    | (some e, s') => (s', some (IndexErr.addFailed e))
    | (none, s') => processChunkList add hash filePath total s' (idx + 1) rest

/-- `ProcessFile` from `indexer.go`: read the file, split it into
chunks of target size 1000, and write each chunk to the store,
aborting on the first failure. -/
def ProcessFile {σ ε : Type} (readFile : List Char → Except ε (List Char))
    (add : σ → List (List Char) → List ChunkMeta → List (List Char) → Option ε × σ)
    (hash : List Char → List Nat) (s : σ) (filePath : List Char) :
    σ × Option (IndexErr ε) :=
  match readFile filePath with
  | Except.error e => (s, some (IndexErr.readFailed filePath e))
  | Except.ok content =>
    let chunks := splitIntoChunks content 1000
    processChunkList add hash filePath chunks.length s 0 chunks

/-- One entry handed to the `filepath.WalkDir` callback: the path, the
directory flag of its `DirEntry`, and the traversal error passed for
it (if any). -/
structure WalkEntry (ε : Type) where
  path : List Char
  isDir : Bool
  err : Option ε
deriving DecidableEq

/-- `IndexDirectory` from `indexer.go` applied to the walk-order list
of entries the traversal produces: a traversal error is returned as is
and aborts the walk; directories and non-code files are skipped;
eligible files go through `ProcessFile`, whose first error also aborts
the walk. -/
def IndexDirectory {σ ε : Type} (readFile : List Char → Except ε (List Char))
    (add : σ → List (List Char) → List ChunkMeta → List (List Char) → Option ε × σ)
    (hash : List Char → List Nat) :
    σ → List (WalkEntry ε) → σ × Option (IndexErr ε)
  | s, [] => (s, none)
  | s, entry :: rest =>
    match entry.err with
    | some e => (s, some (IndexErr.walkFailed e))
    | none =>
      if entry.isDir || !isCodeFile entry.path then
        IndexDirectory readFile add hash s rest
      else
        match ProcessFile readFile add hash s entry.path with
        | (s', some err) => (s', some err)
        | (s', none) => IndexDirectory readFile add hash s' rest

/-- The all-writes-succeed run of the `ProcessFile` chunk loop,
starting at chunk index `idx`: `some` of the resulting store state when
every `add` call succeeds, `none` otherwise.  Proof companion used to
state which store state the loop has reached when a later write
fails. -/
def runAdds {σ ε : Type} (add : σ → List (List Char) → List ChunkMeta →
      List (List Char) → Option ε × σ)
    (hash : List Char → List Nat) (filePath : List Char) (total : Nat) :
    σ → Nat → List (List Char) → Option σ
  | s, _, [] => some s
  | s, idx, chunk :: rest =>
    match add s [chunk] [chunkMeta filePath idx total] [generateID hash filePath chunk] with
    | (none, s') => runAdds add hash filePath total s' (idx + 1) rest
    | (some _, _) => none

/-- The all-files-succeed run of `IndexDirectory` over a prefix of the
walk: `some` of the resulting store state when no entry produces an
error. -/
def runEntries {σ ε : Type} (readFile : List Char → Except ε (List Char))
    (add : σ → List (List Char) → List ChunkMeta → List (List Char) → Option ε × σ)
    (hash : List Char → List Nat) :
    σ → List (WalkEntry ε) → Option σ
  | s, [] => some s
  | s, entry :: rest =>
    match entry.err with
    | some _ => none
    | none =>
      if entry.isDir || !isCodeFile entry.path then
        runEntries readFile add hash s rest
      else
        match ProcessFile readFile add hash s entry.path with
        | (_, some _) => none
        | (s', none) => runEntries readFile add hash s' rest

/-! ### Embedding client (`GenerateEmbeddings`)

The HTTP transport and the JSON decoding of the response body are
external; they appear as parameters `doRequest` (marshalling and
request-construction failures folded into its error case) and
`decode`.  Embedding vectors (`[]float32`) are never computed with,
only moved, so their type is a parameter. -/

/-- The request body of `GenerateEmbeddings` (`EmbeddingRequest`). -/
structure EmbeddingRequest where
  input : List (List Char)
  model : List Char

/-- One element of the response's `data` array. -/
structure EmbeddingDatum (Emb : Type) where
  embedding : Emb
  index : Int
  object : List Char

/-- The decoded response body (`EmbeddingResponse`); the usage fields
play no role in the code path under verification but are carried. -/
structure EmbeddingResponse (Emb : Type) where
  data : List (EmbeddingDatum Emb)
  model : List Char
  promptTokens : Nat
  totalTokens : Nat

/-- An HTTP response: status code and raw body. -/
structure HttpResponse (γ : Type) where
  statusCode : Nat
  body : γ

/-- Errors `GenerateEmbeddings` returns, mirroring its `fmt.Errorf`
branches. -/
inductive EmbedErr (ε : Type) where
  | noTexts
  | requestFailed (e : ε)
  | badStatus (code : Nat)
  | decodeFailed (e : ε)
deriving DecidableEq

/-- `GenerateEmbeddings` from `embeddings.go`: reject an empty input
batch, send the request, reject a non-200 status, decode the body, and
return the `Embedding` field of each `data` element in order. -/
def GenerateEmbeddings {γ Emb ε : Type}
    (doRequest : EmbeddingRequest → Except ε (HttpResponse γ))
    (decode : γ → Except ε (EmbeddingResponse Emb))
    (model : List Char) (texts : List (List Char)) : Except (EmbedErr ε) (List Emb) :=
  if texts.length = 0 then Except.error EmbedErr.noTexts
  else
    match doRequest ⟨texts, model⟩ with
    | Except.error e => Except.error (EmbedErr.requestFailed e)
    | Except.ok resp =>
      if resp.statusCode ≠ 200 then Except.error (EmbedErr.badStatus resp.statusCode)
      else
        match decode resp.body with
        | Except.error e => Except.error (EmbedErr.decodeFailed e)
        | Except.ok embeddingResp =>
          Except.ok (embeddingResp.data.map (fun d => d.embedding))

/-! ### Search (`Search` over `QuerySimilar`)

`QuerySimilar` (the store) is external: a function from query and
limit to an error or the parallel `(documents, metadatas)` pair.  The
Go loop indexes `metadata[idx]` for every position of `docs` with no
bounds check; the unchecked access is modelled by an `Option`-valued
builder in which `none` is the out-of-bounds panic. -/

/-- A search result pair (`SearchResult`). -/
structure SearchResult (Meta : Type) where
  content : List Char
  metadata : Meta

/-- The result-building loop of `Search`: pair `docs[idx]` with
`metadata[idx]`; an out-of-bounds metadata access (a Go runtime panic)
is `none`. -/
def buildResults {Meta : Type} (metadata : List Meta) :
    Nat → List (List Char) → Option (List (SearchResult Meta))
  | _, [] => some []
  | idx, doc :: rest =>
    match metadata[idx]? with
    | none => none
    | some m =>
      match buildResults metadata (idx + 1) rest with
      | none => none
      | some rs => some (⟨doc, m⟩ :: rs)

/-- Errors of `Search`. -/
inductive SearchErr (ε : Type) where
  | queryFailed (e : ε)
deriving DecidableEq

/-- `Search` from `indexer.go`: query the store and map the parallel
result sequences into `SearchResult` pairs; `Except.ok none` is the
run in which the unchecked `metadata[idx]` access panics. -/
def Search {Meta ε : Type}
    (querySimilar : List Char → Nat → Except ε (List (List Char) × List Meta))
    (query : List Char) (lim : Nat) :
    Except (SearchErr ε) (Option (List (SearchResult Meta))) :=
  match querySimilar query lim with
  | Except.error e => Except.error (SearchErr.queryFailed e)
  | Except.ok (docs, metadata) => Except.ok (buildResults metadata 0 docs)

/-! ### Concrete instantiations used by witnesses -/

/-- A digest function whose output is always 32 zero bytes; it
satisfies the byte-range and output-length side conditions of the
`generateID` claims. -/
def constHash32 : List Char → List Nat := fun _ => List.replicate 32 0

/-- A transport that answers 200 exactly for one-element input
batches, so that together with `singletonDecode` the provider is
aligned (one datum per input text). -/
def alignedRequest : EmbeddingRequest → Except Unit (HttpResponse Unit) :=
  fun req => if req.input.length = 1 then Except.ok ⟨200, ()⟩ else Except.error ()

/-- A decoder producing one fixed embedding datum. -/
def singletonDecode : Unit → Except Unit (EmbeddingResponse Nat) :=
  fun _ => Except.ok ⟨[⟨42, 0, []⟩], [], 0, 0⟩

/-- A file system on which every read returns the two-byte content
`"hi"`. -/
def readHi : List Char → Except Unit (List Char) := fun _ => Except.ok ['h', 'i']

/-- A store (its state the list of written chunk texts) on which every
write fails, leaving the state unchanged. -/
def addAlwaysFail : List (List Char) → List (List Char) → List ChunkMeta →
    List (List Char) → Option Unit × List (List Char) :=
  fun s _ _ _ => (some (), s)

/-- The empty digest function. -/
def emptyHash : List Char → List Nat := fun _ => []

@[simp] theorem flattenNl_nil : flattenNl [] = [] := rfl

@[simp] theorem flattenNl_cons (l : List Char) (ls : List (List Char)) :
    flattenNl (l :: ls) = l ++ '\n' :: flattenNl ls := by
  simp [flattenNl]

theorem flattenNl_append (a b : List (List Char)) :
    flattenNl (a ++ b) = flattenNl a ++ flattenNl b := by
  induction a with
  | nil => simp
  | cons l a ih => simp [ih]

@[simp] theorem sizeNl_nil : sizeNl [] = 0 := rfl

@[simp] theorem sizeNl_cons (l : List Char) (ls : List (List Char)) :
    sizeNl (l :: ls) = l.length + 1 + sizeNl ls := by
  simp [sizeNl]

theorem sizeNl_append (a b : List (List Char)) :
    sizeNl (a ++ b) = sizeNl a + sizeNl b := by
  induction a with
  | nil => simp
  | cons l a ih => simp [ih]; omega

theorem flattenNl_length (ls : List (List Char)) :
    (flattenNl ls).length = sizeNl ls := by
  induction ls with
  | nil => rfl
  | cons l ls ih => simp [ih]; omega

theorem flattenNl_eq_nil_iff (ls : List (List Char)) :
    flattenNl ls = [] ↔ ls = [] := by
  cases ls with
  | nil => simp
  | cons l ls => simp

theorem sizeNl_pos (ls : List (List Char)) (h : ls ≠ []) : 0 < sizeNl ls := by
  cases ls with
  | nil => exact absurd rfl h
  | cons l ls => rw [sizeNl_cons]; omega

theorem splitOnNl_ne_nil (t : List Char) : splitOnNl t ≠ [] := by
  cases t with
  | nil => simp [splitOnNl]
  | cons c rest =>
    simp only [splitOnNl]
    split
    · simp
    · split <;> simp

theorem splitOnNl_no_newline (t : List Char) :
    ∀ l ∈ splitOnNl t, '\n' ∉ l := by
  induction t with
  | nil => simp [splitOnNl]
  | cons c rest ih =>
    intro l hl
    by_cases hc : c = '\n'
    · rw [splitOnNl, if_pos hc] at hl
      rcases List.mem_cons.mp hl with h | h
      · simp [h]
      · exact ih l h
    · rw [splitOnNl, if_neg hc] at hl
      rcases hs : splitOnNl rest with _ | ⟨x, xs⟩
      · exact absurd hs (splitOnNl_ne_nil rest)
      · rw [hs] at hl
        rcases List.mem_cons.mp hl with h | h
        · subst h
          intro hmem
          rcases List.mem_cons.mp hmem with h | h
          · exact hc h.symm
          · exact ih x (by rw [hs]; exact List.mem_cons_self x xs) h
        · exact ih l (by rw [hs]; exact List.mem_cons_of_mem x h)

theorem flattenNl_splitOnNl (t : List Char) :
    flattenNl (splitOnNl t) = t ++ ['\n'] := by
  induction t with
  | nil => rfl
  | cons c rest ih =>
    by_cases hc : c = '\n'
    · subst hc
      rw [splitOnNl, if_pos rfl, flattenNl_cons, ih]
      simp
    · rw [splitOnNl, if_neg hc]
      rcases hs : splitOnNl rest with _ | ⟨x, xs⟩
      · exact absurd hs (splitOnNl_ne_nil rest)
      · rw [hs] at ih
        rw [flattenNl_cons] at ih ⊢
        simp only [List.cons_append, List.append_assoc] at ih ⊢
        rw [ih]

theorem splitOnNl_flat (l : List Char) (rest : List Char) (h : '\n' ∉ l) :
    splitOnNl (l ++ '\n' :: rest) = l :: splitOnNl rest := by
  induction l with
  | nil => simp [splitOnNl]
  | cons c l ih =>
    have hc : c ≠ '\n' := fun hc => h (by simp [hc])
    have hl : '\n' ∉ l := fun hl => h (List.mem_cons_of_mem c hl)
    rw [List.cons_append, splitOnNl, if_neg hc, ih hl]

theorem splitOnNl_flattenNl (blk : List (List Char)) (hne : blk ≠ [])
    (h : ∀ l ∈ blk, '\n' ∉ l) :
    splitOnNl (flattenNl blk) = blk ++ [[]] := by
  induction blk with
  | nil => exact absurd rfl hne
  | cons x blk ih =>
    have hx : '\n' ∉ x := h x (List.mem_cons_self x blk)
    cases blk with
    | nil =>
      rw [flattenNl_cons, flattenNl_nil, splitOnNl_flat x [] hx]
      rfl
    | cons y blk' =>
      rw [flattenNl_cons, splitOnNl_flat x _ hx,
        ih (by simp) (fun l hl => h l (List.mem_cons_of_mem x hl))]
      rfl

theorem chunkLoop_eq_chunkBlocks (cs : Nat) (lines : List (List Char)) :
    ∀ blk size, chunkLoop cs lines (flattenNl blk) size =
      (chunkBlocks cs lines blk size).map flattenNl := by
  induction lines with
  | nil =>
    intro blk size
    cases blk with
    | nil => simp [chunkLoop, chunkBlocks]
    | cons l ls =>
      have h1 : (flattenNl (l :: ls)).length > 0 := by
        rw [flattenNl_length, sizeNl_cons]; omega
      have h2 : (l :: ls).length > 0 := by simp
      rw [chunkLoop, chunkBlocks, if_pos h1, if_pos h2]
      rfl
  | cons line rest ih =>
    intro blk size
    rw [chunkLoop, chunkBlocks]
    by_cases h : size + (line.length + 1) > cs ∧ size > 0
    · rw [if_pos h, if_pos h, List.map_cons]
      have : line ++ ['\n'] = flattenNl [line] := by simp
      rw [this, ih [line] (line.length + 1)]
    · rw [if_neg h, if_neg h]
      have : flattenNl blk ++ (line ++ ['\n']) = flattenNl (blk ++ [line]) := by
        rw [flattenNl_append]; simp
      rw [this, ih (blk ++ [line]) (size + (line.length + 1))]

theorem splitIntoChunks_eq_blocks (text : List Char) (cs : Nat) :
    splitIntoChunks text cs =
      (chunkBlocks cs (splitOnNl text) [] 0).map flattenNl := by
  rw [splitIntoChunks]
  have : ([] : List Char) = flattenNl [] := rfl
  rw [this, chunkLoop_eq_chunkBlocks]

theorem chunkBlocks_join (cs : Nat) (lines : List (List Char)) :
    ∀ blk size, (chunkBlocks cs lines blk size).flatten = blk ++ lines := by
  induction lines with
  | nil =>
    intro blk size
    rw [chunkBlocks]
    by_cases h : blk.length > 0
    · rw [if_pos h]; simp
    · have : blk = [] := by
        cases blk with
        | nil => rfl
        | cons l ls => simp at h
      subst this; simp
  | cons line rest ih =>
    intro blk size
    rw [chunkBlocks]
    by_cases h : size + (line.length + 1) > cs ∧ size > 0
    · rw [if_pos h, List.flatten_cons, ih [line] (line.length + 1)]
      simp
    · rw [if_neg h, ih (blk ++ [line]) (size + (line.length + 1))]
      simp

theorem chunkBlocks_blocks (cs : Nat) (lines : List (List Char)) :
    ∀ blk size, size = sizeNl blk → (2 ≤ blk.length → sizeNl blk ≤ cs) →
      ∀ b ∈ chunkBlocks cs lines blk size, b ≠ [] ∧ (sizeNl b ≤ cs ∨ b.length = 1) := by
  induction lines with
  | nil =>
    intro blk size hsize hbound b hb
    rw [chunkBlocks] at hb
    by_cases h : blk.length > 0
    · rw [if_pos h] at hb
      have hbb : b = blk := List.mem_singleton.mp hb
      subst hbb
      have hne : b ≠ [] := by
        intro h'
        rw [h'] at h
        simp at h
      refine ⟨hne, ?_⟩
      rcases Nat.lt_or_ge b.length 2 with h2 | h2
      · right
        cases b with
        | nil => exact absurd rfl hne
        | cons x xs =>
          simp only [List.length_cons] at h2 ⊢
          omega
      · left; exact hbound h2
    · rw [if_neg h] at hb
      simp at hb
  | cons line rest ih =>
    intro blk size hsize hbound b hb
    rw [chunkBlocks] at hb
    by_cases h : size + (line.length + 1) > cs ∧ size > 0
    · rw [if_pos h] at hb
      obtain ⟨hgt, hpos⟩ := h
      rcases List.mem_cons.mp hb with hbb | hb
      · subst hbb
        have hne : b ≠ [] := by
          intro h'
          rw [h', sizeNl_nil] at hsize
          omega
        refine ⟨hne, ?_⟩
        rcases Nat.lt_or_ge b.length 2 with h2 | h2
        · right
          cases b with
          | nil => exact absurd rfl hne
          | cons x xs =>
            simp only [List.length_cons] at h2 ⊢
            omega
        · left; exact hbound h2
      · exact ih [line] (line.length + 1) (by simp) (by simp) b hb
    · rw [if_neg h] at hb
      refine ih (blk ++ [line]) (size + (line.length + 1)) ?_ ?_ b hb
      · rw [sizeNl_append, hsize]; simp
      · intro h2
        have hblk : blk ≠ [] := by
          intro h'
          rw [h'] at h2
          simp at h2
        have hpos : 0 < size := hsize ▸ sizeNl_pos blk hblk
        have hle : ¬ size + (line.length + 1) > cs := by
          intro hgt; exact h ⟨hgt, hpos⟩
        rw [sizeNl_append, ← hsize, sizeNl_cons, sizeNl_nil]
        omega

theorem flatten_map_flattenNl (bs : List (List (List Char))) :
    (bs.map flattenNl).flatten = flattenNl bs.flatten := by
  induction bs with
  | nil => rfl
  | cons b bs ih =>
    rw [List.map_cons, List.flatten_cons, List.flatten_cons, flattenNl_append, ih]

theorem flattenNl_ends (b : List (List Char)) (h : b ≠ []) :
    ∃ pre, flattenNl b = pre ++ ['\n'] := by
  induction b with
  | nil => exact absurd rfl h
  | cons x b ih =>
    cases b with
    | nil => exact ⟨x, by simp⟩
    | cons y b' =>
      obtain ⟨pre, hpre⟩ := ih (by simp)
      exact ⟨x ++ '\n' :: pre, by rw [flattenNl_cons, hpre]; simp⟩

/-! ### Claim theorems about the chunker -/

/-- C1 (chunk coverage): for every input text and positive target
chunk size, concatenating the lines of all chunks produced by
`splitIntoChunks`, in order, reproduces the original sequence of lines
exactly — no loss, no duplication, no reordering.  The lines of a
chunk are its newline-separated segments minus the final empty segment
contributed by the chunk's terminating newline. -/
theorem chunk_coverage (text : List Char) (cs : Nat) (hcs : 0 < cs) :
    ((splitIntoChunks text cs).map (fun c => (splitOnNl c).dropLast)).flatten
      = splitOnNl text := by
  rw [splitIntoChunks_eq_blocks]
  have hjoin : (chunkBlocks cs (splitOnNl text) [] 0).flatten = splitOnNl text := by
    rw [chunkBlocks_join]; rfl
  have hprops := chunkBlocks_blocks cs (splitOnNl text) [] 0 rfl (by simp)
  rw [List.map_map]
  have hcongr : ∀ b ∈ chunkBlocks cs (splitOnNl text) [] 0,
      ((fun c => (splitOnNl c).dropLast) ∘ flattenNl) b = id b := by
    intro b hb
    have hne := (hprops b hb).1
    have hnl : ∀ l ∈ b, '\n' ∉ l := by
      intro l hl
      have hmem : l ∈ (chunkBlocks cs (splitOnNl text) [] 0).flatten :=
        List.mem_flatten.mpr ⟨b, hb, hl⟩
      rw [hjoin] at hmem
      exact splitOnNl_no_newline text l hmem
    show (splitOnNl (flattenNl b)).dropLast = b
    rw [splitOnNl_flattenNl b hne hnl, List.dropLast_concat]
  rw [List.map_congr_left hcongr, List.map_id]
  exact hjoin

/-- Witness for C1 at the text `"ab\ncd"` and target size 3. -/
theorem chunk_coverage_witness :
    0 < 3 ∧
      ((splitIntoChunks ['a', 'b', '\n', 'c', 'd'] 3).map
          (fun c => (splitOnNl c).dropLast)).flatten
        = splitOnNl ['a', 'b', '\n', 'c', 'd'] :=
  ⟨by decide, chunk_coverage ['a', 'b', '\n', 'c', 'd'] 3 (by decide)⟩

/-- C2 counterexample: at the positive target size 1000, chunking the
empty text does not yield zero chunks (Go `strings.Split("", "\n")`
yields one empty line, which the loop turns into the chunk `"\n"`). -/
theorem empty_text_zero_chunks_counterexample :
    0 < 1000 ∧ splitIntoChunks [] 1000 ≠ [] := by decide

/-- C2 (amended): for every positive target chunk size,
`splitIntoChunks` applied to the empty input text returns exactly one
chunk, consisting of a single newline character. -/
theorem empty_text_single_newline_chunk (cs : Nat) (hcs : 0 < cs) :
    splitIntoChunks [] cs = [['\n']] := by
  simp [splitIntoChunks, splitOnNl, chunkLoop]

/-- Witness for the amended C2 at target size 7. -/
theorem empty_text_single_newline_chunk_witness :
    0 < 7 ∧ splitIntoChunks [] 7 = [['\n']] :=
  ⟨by decide, empty_text_single_newline_chunk 7 (by decide)⟩

/-- C4 (chunk size soft bound): every chunk is a concatenation of
whole original lines (a line is never split mid-chunk), and every
chunk either stays within the target size (its accumulated size, each
line's length plus one for its newline, being exactly its character
length) or is a single-line chunk — one oversized line still becomes
one chunk, exceeding the target by no more than that line's length. -/
theorem chunk_size_soft_bound (text : List Char) (cs : Nat) (hcs : 0 < cs) :
    ∀ c ∈ splitIntoChunks text cs,
      (∃ blk, blk ≠ [] ∧ (∀ l ∈ blk, l ∈ splitOnNl text) ∧ c = flattenNl blk) ∧
        (c.length ≤ cs ∨
          ∃ line ∈ splitOnNl text, c = line ++ ['\n'] ∧ c.length ≤ cs + line.length) := by
  have hprops := chunkBlocks_blocks cs (splitOnNl text) [] 0 rfl (by simp)
  have hjoin : (chunkBlocks cs (splitOnNl text) [] 0).flatten = splitOnNl text := by
    rw [chunkBlocks_join]; rfl
  intro c hc
  rw [splitIntoChunks_eq_blocks] at hc
  obtain ⟨b, hb, rfl⟩ := List.mem_map.mp hc
  obtain ⟨hne, hbound⟩ := hprops b hb
  have hmemlines : ∀ l ∈ b, l ∈ splitOnNl text := by
    intro l hl
    have hmem := List.mem_flatten.mpr ⟨b, hb, hl⟩
    rwa [hjoin] at hmem
  refine ⟨⟨b, hne, hmemlines, rfl⟩, ?_⟩
  rcases hbound with hle | hone
  · left
    rw [flattenNl_length]
    exact hle
  · right
    obtain ⟨line, rfl⟩ : ∃ line, b = [line] := by
      cases b with
      | nil => exact absurd rfl hne
      | cons x xs =>
        cases xs with
        | nil => exact ⟨x, rfl⟩
        | cons y ys => simp at hone
    refine ⟨line, hmemlines line (by simp), by simp, ?_⟩
    rw [flattenNl_length, sizeNl_cons, sizeNl_nil]
    omega

/-- Witness for C4 at the text `"abcdef"` (one line longer than the
target size 3) and its oversized single-line chunk `"abcdef\n"`. -/
theorem chunk_size_soft_bound_witness :
    0 < 3 ∧
      ((∃ blk, blk ≠ [] ∧
            (∀ l ∈ blk, l ∈ splitOnNl ['a', 'b', 'c', 'd', 'e', 'f']) ∧
            ['a', 'b', 'c', 'd', 'e', 'f', '\n'] = flattenNl blk) ∧
        (['a', 'b', 'c', 'd', 'e', 'f', '\n'].length ≤ 3 ∨
          ∃ line ∈ splitOnNl ['a', 'b', 'c', 'd', 'e', 'f'],
            ['a', 'b', 'c', 'd', 'e', 'f', '\n'] = line ++ ['\n'] ∧
              ['a', 'b', 'c', 'd', 'e', 'f', '\n'].length ≤ 3 + line.length)) :=
  ⟨by decide,
    chunk_size_soft_bound ['a', 'b', 'c', 'd', 'e', 'f'] 3 (by decide)
      ['a', 'b', 'c', 'd', 'e', 'f', '\n'] (by decide)⟩

/-- C9 (chunker normalization): for every input text and positive
target size, every chunk is non-empty and ends with a newline, and the
concatenation of all chunks equals the input text with exactly one
extra newline appended. -/
theorem chunk_normalization (text : List Char) (cs : Nat) (hcs : 0 < cs) :
    (∀ c ∈ splitIntoChunks text cs, c ≠ [] ∧ c.getLast? = some '\n') ∧
      (splitIntoChunks text cs).flatten = text ++ ['\n'] := by
  have hprops := chunkBlocks_blocks cs (splitOnNl text) [] 0 rfl (by simp)
  constructor
  · intro c hc
    rw [splitIntoChunks_eq_blocks] at hc
    obtain ⟨b, hb, rfl⟩ := List.mem_map.mp hc
    have hne := (hprops b hb).1
    obtain ⟨pre, hpre⟩ := flattenNl_ends b hne
    refine ⟨fun h => hne ((flattenNl_eq_nil_iff b).mp h), ?_⟩
    rw [hpre, List.getLast?_concat]
  · rw [splitIntoChunks_eq_blocks, flatten_map_flattenNl, chunkBlocks_join,
      List.nil_append, flattenNl_splitOnNl]

/-- Witness for C9 at the text `"ab\ncd"` and target size 3. -/
theorem chunk_normalization_witness :
    0 < 3 ∧
      ((∀ c ∈ splitIntoChunks ['a', 'b', '\n', 'c', 'd'] 3,
          c ≠ [] ∧ c.getLast? = some '\n') ∧
        (splitIntoChunks ['a', 'b', '\n', 'c', 'd'] 3).flatten
          = ['a', 'b', '\n', 'c', 'd'] ++ ['\n']) :=
  ⟨by decide, chunk_normalization ['a', 'b', '\n', 'c', 'd'] 3 (by decide)⟩

/-! ### Hex encoding and `generateID` -/

theorem hexDigit_mem (n : Nat) : hexDigit n ∈ hexTable := by
  by_cases h : n < 16
  · interval_cases n <;> decide
  · have h16 : hexTable.length ≤ n := by
      have hlen : hexTable.length = 16 := by decide
      omega
    rw [hexDigit, List.getD_eq_default _ _ h16]
    decide

theorem hexDigit_inj (a b : Nat) (ha : a < 16) (hb : b < 16)
    (h : hexDigit a = hexDigit b) : a = b := by
  have key : ∀ x y : Fin 16, hexDigit x.val = hexDigit y.val → x = y := by decide
  exact congrArg Fin.val (key ⟨a, ha⟩ ⟨b, hb⟩ h)

theorem encodeByte_inj (a b : Nat) (ha : a < 256) (hb : b < 256)
    (h : encodeByte a = encodeByte b) : a = b := by
  simp only [encodeByte, List.cons.injEq, and_true] at h
  obtain ⟨h1, h2⟩ := h
  rw [Nat.mod_eq_of_lt ha, Nat.mod_eq_of_lt hb] at h1
  have d1 : a / 16 = b / 16 := hexDigit_inj _ _ (by omega) (by omega) h1
  have d2 : a % 16 = b % 16 := hexDigit_inj _ _ (by omega) (by omega) h2
  omega

theorem hexEncodeBytes_inj (xs ys : List Nat)
    (hx : ∀ b ∈ xs, b < 256) (hy : ∀ b ∈ ys, b < 256)
    (h : hexEncodeBytes xs = hexEncodeBytes ys) : xs = ys := by
  induction xs generalizing ys with
  | nil =>
    cases ys with
    | nil => rfl
    | cons y ys => simp [hexEncodeBytes, encodeByte] at h
  | cons x xs ih =>
    cases ys with
    | nil => simp [hexEncodeBytes, encodeByte] at h
    | cons y ys =>
      simp only [hexEncodeBytes, List.map_cons, List.flatten_cons, encodeByte,
        List.cons_append, List.nil_append, List.cons.injEq] at h
      obtain ⟨h1, h2, h3⟩ := h
      have hxy : x = y := by
        apply encodeByte_inj x y (hx x (List.mem_cons_self x xs)) (hy y (List.mem_cons_self y ys))
        rw [encodeByte, encodeByte, h1, h2]
      subst hxy
      have hrest : xs = ys :=
        ih ys (fun b hb => hx b (List.mem_cons_of_mem x hb))
          (fun b hb => hy b (List.mem_cons_of_mem x hb)) h3
      rw [hrest]

theorem hexEncodeBytes_length (bs : List Nat) :
    (hexEncodeBytes bs).length = 2 * bs.length := by
  induction bs with
  | nil => rfl
  | cons b bs ih =>
    rw [hexEncodeBytes, List.map_cons, List.flatten_cons, List.length_append]
    have h2 : (encodeByte b).length = 2 := rfl
    rw [h2]
    rw [hexEncodeBytes] at ih
    rw [ih, List.length_cons]
    omega

theorem hexEncodeBytes_mem (bs : List Nat) :
    ∀ c ∈ hexEncodeBytes bs, c ∈ hexTable := by
  intro c hc
  rw [hexEncodeBytes] at hc
  obtain ⟨l, hl, hcl⟩ := List.mem_flatten.mp hc
  obtain ⟨b, hb, rfl⟩ := List.mem_map.mp hl
  rw [encodeByte] at hcl
  rcases List.mem_cons.mp hcl with rfl | hcl
  · exact hexDigit_mem _
  · rcases List.mem_cons.mp hcl with rfl | hcl
    · exact hexDigit_mem _
    · simp at hcl

/-- C3 (content-addressed ID): `generateID` is deterministic; two
calls with the same content but different paths (or the same path but
different contents) that produce the same ID exhibit a genuine digest
collision — two *distinct* input byte strings with equal digests —
so, digest collisions excluded, changing the path alone or the content
alone changes the ID.  Changing both at once can leave the ID fixed
without any digest collision (the concatenation has no separator), so
the one-component-at-a-time reading of the claim is the one proved.
The ID is the hex encoding of the digest of `path ++ content`: for a
32-byte digest it has 64 characters, all lowercase hex digits. -/
theorem generateID_content_addressed (hash : List Char → List Nat)
    (hbytes : ∀ x, ∀ b ∈ hash x, b < 256)
    (hlen : ∀ x, (hash x).length = 32) :
    (∀ p t, generateID hash p t = generateID hash p t) ∧
      (∀ p1 p2 t, p1 ≠ p2 → generateID hash p1 t = generateID hash p2 t →
        hash (p1 ++ t) = hash (p2 ++ t) ∧ p1 ++ t ≠ p2 ++ t) ∧
      (∀ p t1 t2, t1 ≠ t2 → generateID hash p t1 = generateID hash p t2 →
        hash (p ++ t1) = hash (p ++ t2) ∧ p ++ t1 ≠ p ++ t2) ∧
      (∀ p t, (generateID hash p t).length = 64) ∧
      (∀ p t, ∀ c ∈ generateID hash p t, c ∈ hexTable) := by
  refine ⟨fun p t => rfl, ?_, ?_, ?_, ?_⟩
  · intro p1 p2 t hne heq
    refine ⟨hexEncodeBytes_inj _ _ (hbytes _) (hbytes _) heq, ?_⟩
    intro h
    exact hne (List.append_cancel_right h)
  · intro p t1 t2 hne heq
    refine ⟨hexEncodeBytes_inj _ _ (hbytes _) (hbytes _) heq, ?_⟩
    intro h
    exact hne (List.append_cancel_left h)
  · intro p t
    rw [generateID, hexEncodeBytes_length, hlen]
  · intro p t
    exact hexEncodeBytes_mem _

/-- Witness for C3 at the 32-zero-byte digest function. -/
theorem generateID_content_addressed_witness :
    (∀ p t, generateID constHash32 p t = generateID constHash32 p t) ∧
      (∀ p1 p2 t, p1 ≠ p2 → generateID constHash32 p1 t = generateID constHash32 p2 t →
        constHash32 (p1 ++ t) = constHash32 (p2 ++ t) ∧ p1 ++ t ≠ p2 ++ t) ∧
      (∀ p t1 t2, t1 ≠ t2 → generateID constHash32 p t1 = generateID constHash32 p t2 →
        constHash32 (p ++ t1) = constHash32 (p ++ t2) ∧ p ++ t1 ≠ p ++ t2) ∧
      (∀ p t, (generateID constHash32 p t).length = 64) ∧
      (∀ p t, ∀ c ∈ generateID constHash32 p t, c ∈ hexTable) :=
  generateID_content_addressed constHash32
    (fun x b hb => by rw [List.eq_of_mem_replicate hb]; omega)
    (fun x => List.length_replicate 32 0)

/-! ### File filter -/

/-- C7 (file filter correctness): `isCodeFile path` is true exactly
when the lowercased extension of `path` is in the fixed allow-list,
the source's allow-list is the spec's allow-list, and the spec's three
examples behave as stated (`"Main.GO"` eligible, `"notes.txt"` and the
extensionless `"README"` not). -/
theorem isCodeFile_allowlist :
    (∀ p, isCodeFile p = true ↔ toLowerStr (filepathExt p) ∈ specAllowedExtensions) ∧
      codeExtensions = specAllowedExtensions ∧
      isCodeFile ("Main.GO".toList) = true ∧
      isCodeFile ("notes.txt".toList) = false ∧
      isCodeFile ("README".toList) = false := by
  refine ⟨?_, by decide, by decide, by decide, by decide⟩
  intro p
  rw [isCodeFile]
  have hspec : codeExtensions = specAllowedExtensions := by decide
  rw [hspec]
  exact List.elem_iff

/-- Witness for C7 at the path `"Main.GO"`. -/
theorem isCodeFile_allowlist_witness :
    isCodeFile ("Main.GO".toList) = true ∧
      toLowerStr (filepathExt ("Main.GO".toList)) ∈ specAllowedExtensions :=
  ⟨isCodeFile_allowlist.2.2.1,
    (isCodeFile_allowlist.1 ("Main.GO".toList)).mp isCodeFile_allowlist.2.2.1⟩

/-! ### Search -/

theorem buildResults_eq {Meta : Type} (metadata : List Meta) :
    ∀ docs idx, idx + docs.length ≤ metadata.length →
      buildResults metadata idx docs =
        some (List.zipWith (fun d m => (⟨d, m⟩ : SearchResult Meta)) docs
          (metadata.drop idx)) := by
  intro docs
  induction docs with
  | nil => intro idx h; simp [buildResults]
  | cons d rest ih =>
    intro idx h
    have hidx : idx < metadata.length := by
      simp only [List.length_cons] at h
      omega
    have hrest := ih (idx + 1) (by simp only [List.length_cons] at h; omega)
    simp only [buildResults, List.getElem?_eq_getElem hidx, hrest,
      List.drop_eq_getElem_cons hidx, List.zipWith_cons_cons]

theorem buildResults_oob {Meta : Type} (metadata : List Meta) :
    ∀ docs idx, idx ≤ metadata.length → metadata.length < idx + docs.length →
      buildResults metadata idx docs = none := by
  intro docs
  induction docs with
  | nil =>
    intro idx hle hlt
    simp only [List.length_nil, Nat.add_zero] at hlt
    omega
  | cons d rest ih =>
    intro idx hle hlt
    rcases Nat.lt_or_ge idx metadata.length with hidx | hidx
    · have hrec := ih (idx + 1) (by omega)
        (by simp only [List.length_cons] at hlt; omega)
      simp only [buildResults, List.getElem?_eq_getElem hidx, hrec]
    · simp only [buildResults, List.getElem?_eq_none hidx]

/-- C8 (search result mapping): when the store query succeeds with
parallel `(documents, metadata)` sequences of equal length, `Search`
succeeds (no panic) with one `SearchResult` per document, in the
store's order, the `j`-th result pairing the `j`-th document with the
`j`-th metadata entry. -/
theorem search_result_mapping {Meta ε : Type}
    (querySimilar : List Char → Nat → Except ε (List (List Char) × List Meta))
    (query : List Char) (lim : Nat) (docs : List (List Char)) (metadata : List Meta)
    (hq : querySimilar query lim = Except.ok (docs, metadata))
    (hpar : metadata.length = docs.length) :
    Search querySimilar query lim =
        Except.ok (some (List.zipWith (fun d m => (⟨d, m⟩ : SearchResult Meta))
          docs metadata)) ∧
      (List.zipWith (fun d m => (⟨d, m⟩ : SearchResult Meta)) docs metadata).length
          = docs.length ∧
      ∀ j (hj : j < docs.length),
        (List.zipWith (fun d m => (⟨d, m⟩ : SearchResult Meta)) docs metadata).get
            ⟨j, by rw [List.length_zipWith]; omega⟩
          = ⟨docs.get ⟨j, hj⟩, metadata.get ⟨j, by omega⟩⟩ := by
  refine ⟨?_, ?_, ?_⟩
  · rw [Search, hq]
    show Except.ok (buildResults metadata 0 docs) = _
    have hb := buildResults_eq metadata docs 0 (by omega)
    rw [List.drop_zero] at hb
    rw [hb]
  · rw [List.length_zipWith]
    omega
  · intro j hj
    simp only [List.get_eq_getElem, List.getElem_zipWith]

/-- Witness for C8 at a one-document response. -/
theorem search_result_mapping_witness :
    Search (fun _ _ => Except.ok ([['d']], [0]) :
        List Char → Nat → Except Unit (List (List Char) × List Nat)) ['q'] 5 =
      Except.ok (some [(⟨['d'], 0⟩ : SearchResult Nat)]) :=
  (search_result_mapping (fun _ _ => Except.ok ([['d']], [0]) :
      List Char → Nat → Except Unit (List (List Char) × List Nat))
    ['q'] 5 [['d']] [0] rfl rfl).1

/-- C10 (search indexing safety): the result loop indexes the metadata
sequence at every position of the documents sequence with no bounds
check; when the store response has at least as many metadata entries
as documents every access is in bounds and `Search` returns a defined
result, and the precondition is required — a response with fewer
metadata entries than documents drives an access out of bounds (the
modelled panic `Except.ok none`). -/
theorem search_metadata_indexing_safety {Meta ε : Type}
    (querySimilar : List Char → Nat → Except ε (List (List Char) × List Meta))
    (query : List Char) (lim : Nat) (docs : List (List Char)) (metadata : List Meta)
    (hq : querySimilar query lim = Except.ok (docs, metadata)) :
    (docs.length ≤ metadata.length →
        ∃ rs, Search querySimilar query lim = Except.ok (some rs)) ∧
      (metadata.length < docs.length →
        Search querySimilar query lim = Except.ok none) := by
  constructor
  · intro hle
    refine ⟨List.zipWith (fun d m => (⟨d, m⟩ : SearchResult Meta)) docs metadata, ?_⟩
    rw [Search, hq]
    show Except.ok (buildResults metadata 0 docs) = _
    have hb := buildResults_eq metadata docs 0 (by omega)
    rw [List.drop_zero] at hb
    rw [hb]
  · intro hlt
    rw [Search, hq]
    show Except.ok (buildResults metadata 0 docs) = _
    rw [buildResults_oob metadata docs 0 (by omega) (by omega)]

/-- Witness for C10 at a response with one document and no metadata. -/
theorem search_metadata_indexing_safety_witness :
    ([] : List Nat).length < [['d']].length ∧
      Search (fun _ _ => Except.ok ([['d']], []) :
          List Char → Nat → Except Unit (List (List Char) × List Nat)) ['q'] 5 =
        Except.ok none :=
  ⟨by decide,
    (search_metadata_indexing_safety (fun _ _ => Except.ok ([['d']], []) :
        List Char → Nat → Except Unit (List (List Char) × List Nat))
      ['q'] 5 [['d']] [] rfl).2 (by decide)⟩

/-! ### Embedding client -/

/-- C6 counterexample: a transport whose 200 response decodes to an
empty `data` array makes `GenerateEmbeddings` succeed on a one-element
input with an empty output — the code never checks that the response
carries one embedding per input, so success does not imply output
length equals input length. -/
theorem generateEmbeddings_misaligned_counterexample :
    GenerateEmbeddings (fun _ => Except.ok (⟨200, ()⟩ : HttpResponse Unit) :
          EmbeddingRequest → Except Unit (HttpResponse Unit))
        (fun _ => Except.ok (⟨[], [], 0, 0⟩ : EmbeddingResponse Nat))
        ['m'] [['h', 'i']] = Except.ok ([] : List Nat) ∧
      ([] : List Nat).length ≠ [['h', 'i']].length := by
  constructor
  · rfl
  · decide

/-- C6 (amended): whenever `GenerateEmbeddings` succeeds, its input
was non-empty and the result is exactly the `Embedding` field of each
response datum in the response's order; under the alignment assumption
on the provider (a successful decoded response carries one datum per
input text, the i-th datum for the i-th text), the output length
equals the input length and the i-th embedding corresponds to the
i-th input text.  Without that assumption the code forwards whatever
the provider returned (see the counterexample). -/
theorem generateEmbeddings_alignment {γ Emb ε : Type}
    (doRequest : EmbeddingRequest → Except ε (HttpResponse γ))
    (decode : γ → Except ε (EmbeddingResponse Emb)) (model : List Char)
    (haligned : ∀ req resp er, doRequest req = Except.ok resp →
      decode resp.body = Except.ok er → er.data.length = req.input.length)
    (texts : List (List Char)) (embs : List Emb)
    (hok : GenerateEmbeddings doRequest decode model texts = Except.ok embs) :
    texts ≠ [] ∧ embs.length = texts.length ∧
      ∃ resp er, doRequest ⟨texts, model⟩ = Except.ok resp ∧
        decode resp.body = Except.ok er ∧
        embs = er.data.map (fun d => d.embedding) := by
  rw [GenerateEmbeddings] at hok
  by_cases h0 : texts.length = 0
  · rw [if_pos h0] at hok
    exact Except.noConfusion hok
  · rw [if_neg h0] at hok
    split at hok
    next e hreq => exact Except.noConfusion hok
    next resp hreq =>
      split at hok
      next hst => exact Except.noConfusion hok
      next hst =>
        split at hok
        next e hdec => exact Except.noConfusion hok
        next er hdec =>
          have hembs : embs = er.data.map (fun d => d.embedding) :=
            (Except.ok.inj hok).symm
          refine ⟨?_, ?_, resp, er, hreq, hdec, hembs⟩
          · intro h
            exact h0 (by rw [h]; rfl)
          · rw [hembs, List.length_map]
            exact haligned ⟨texts, model⟩ resp er hreq hdec

/-- Witness for the amended C6 at an aligned one-datum provider. -/
theorem generateEmbeddings_alignment_witness :
    [['h']] ≠ ([] : List (List Char)) ∧ ([42] : List Nat).length = [['h']].length ∧
      ∃ resp er, alignedRequest ⟨[['h']], ['m']⟩ = Except.ok resp ∧
        singletonDecode resp.body = Except.ok er ∧
        ([42] : List Nat) = er.data.map (fun d => d.embedding) :=
  generateEmbeddings_alignment alignedRequest singletonDecode ['m']
    (fun req resp er h1 h2 => by
      have her : er = ⟨[⟨42, 0, []⟩], [], 0, 0⟩ := (Except.ok.inj h2).symm
      subst her
      simp only [alignedRequest] at h1
      by_cases h : req.input.length = 1
      · simp [h]
      · rw [if_neg h] at h1
        exact Except.noConfusion h1)
    [['h']] [42] rfl

/-! ### Indexer orchestration -/

theorem processChunkList_append {σ ε : Type}
    (add : σ → List (List Char) → List ChunkMeta → List (List Char) → Option ε × σ)
    (hash : List Char → List Nat) (fp : List Char) (total : Nat) :
    ∀ pre s s' idx l, runAdds add hash fp total s idx pre = some s' →
      processChunkList add hash fp total s idx (pre ++ l) =
        processChunkList add hash fp total s' (idx + pre.length) l := by
  intro pre
  induction pre with
  | nil =>
    intro s s' idx l h
    have hs : s = s' := Option.some.inj h
    subst hs
    simp
  | cons c pre ih =>
    intro s s' idx l h
    rw [runAdds] at h
    rcases hadd : add s [c] [chunkMeta fp idx total] [generateID hash fp c] with ⟨oe, s1⟩
    rw [hadd] at h
    cases oe with
    | some e => exact Option.noConfusion h
    | none =>
      have harith : idx + (c :: pre).length = idx + 1 + pre.length := by
        simp only [List.length_cons]
        omega
      rw [List.cons_append]
      simp only [processChunkList, hadd]
      rw [harith]
      exact ih s1 s' (idx + 1) l h

theorem indexDirectory_append {σ ε : Type}
    (readFile : List Char → Except ε (List Char))
    (add : σ → List (List Char) → List ChunkMeta → List (List Char) → Option ε × σ)
    (hash : List Char → List Nat) :
    ∀ pre s s' post, runEntries readFile add hash s pre = some s' →
      IndexDirectory readFile add hash s (pre ++ post) =
        IndexDirectory readFile add hash s' post := by
  intro pre
  induction pre with
  | nil =>
    intro s s' post h
    have hs : s = s' := Option.some.inj h
    subst hs
    rw [List.nil_append]
  | cons entry pre ih =>
    intro s s' post h
    obtain ⟨path, isDir, errF⟩ := entry
    cases errF with
    | some e =>
      rw [runEntries] at h
      exact Option.noConfusion h
    | none =>
      rw [List.cons_append]
      simp only [runEntries] at h
      simp only [IndexDirectory]
      by_cases hskip : (isDir || !isCodeFile path) = true
      · rw [if_pos hskip] at h
        rw [if_pos hskip]
        exact ih s s' post h
      · rw [if_neg hskip] at h
        rw [if_neg hskip]
        rcases hPF : ProcessFile readFile add hash s path with ⟨s1, oerr⟩
        rw [hPF] at h
        cases oerr with
        | some e2 => exact Option.noConfusion h
        | none => exact ih s1 s' post h

/-- C5 (first-error abort, no rollback): if during `ProcessFile` the
writes of a prefix of the chunks succeed (leaving the store in state
`s'`) and the write of the next chunk fails (leaving the store in
state `s''`), `ProcessFile` returns the wrapped error at once, with
the store exactly in `s''` — the already-written chunks persist and
the remaining chunks (`post`, arbitrary) are never attempted; and in
`IndexDirectory`, the first file-level error (or traversal error)
aborts the whole scan — the entries after it (`post`, arbitrary) are
never processed — and is returned together with the store state at
the failure. -/
theorem first_error_abort_no_rollback {σ ε : Type}
    (readFile : List Char → Except ε (List Char))
    (add : σ → List (List Char) → List ChunkMeta → List (List Char) → Option ε × σ)
    (hash : List Char → List Nat) :
    (∀ s fp content pre c post s' s'' e,
        readFile fp = Except.ok content →
        splitIntoChunks content 1000 = pre ++ c :: post →
        runAdds add hash fp (pre ++ c :: post).length s 0 pre = some s' →
        add s' [c] [chunkMeta fp pre.length (pre ++ c :: post).length]
            [generateID hash fp c] = (some e, s'') →
        ProcessFile readFile add hash s fp = (s'', some (IndexErr.addFailed e))) ∧
      (∀ s pre entry post s' s'' err,
        runEntries readFile add hash s pre = some s' →
        entry.err = none →
        (entry.isDir || !isCodeFile entry.path) = false →
        ProcessFile readFile add hash s' entry.path = (s'', some err) →
        IndexDirectory readFile add hash s (pre ++ entry :: post) = (s'', some err)) ∧
      (∀ s pre entry post s' e,
        runEntries readFile add hash s pre = some s' →
        entry.err = some e →
        IndexDirectory readFile add hash s (pre ++ entry :: post)
          = (s', some (IndexErr.walkFailed e))) := by
  refine ⟨?_, ?_, ?_⟩
  · intro s fp content pre c post s' s'' e hread hchunks hrun hadd
    simp only [ProcessFile, hread]
    rw [hchunks]
    rw [processChunkList_append add hash fp (pre ++ c :: post).length pre s s' 0
      (c :: post) hrun]
    rw [Nat.zero_add]
    simp only [processChunkList, hadd]
  · intro s pre entry post s' s'' err hrunE hE hskip hPF
    rw [indexDirectory_append readFile add hash pre s s' (entry :: post) hrunE]
    obtain ⟨path, isDir, errF⟩ := entry
    simp only at hE hskip hPF
    subst hE
    simp only [IndexDirectory]
    rw [if_neg (by rw [hskip]; exact Bool.false_ne_true)]
    rw [hPF]
  · intro s pre entry post s' e hrunE hE
    rw [indexDirectory_append readFile add hash pre s s' (entry :: post) hrunE]
    obtain ⟨path, isDir, errF⟩ := entry
    simp only at hE
    subst hE
    simp only [IndexDirectory]

/-- Witness for C5: a store on which every write fails, a file whose
content `"hi"` makes a single chunk whose very first write fails, an
eligible walk entry whose file processing fails, and a walk entry
carrying a traversal error. -/
theorem first_error_abort_no_rollback_witness :
    ProcessFile readHi addAlwaysFail emptyHash [] ['f', '.', 'g', 'o']
        = ([], some (IndexErr.addFailed ())) ∧
      IndexDirectory readHi addAlwaysFail emptyHash []
          [⟨['a', '.', 'g', 'o'], false, none⟩]
        = ([], some (IndexErr.addFailed ())) ∧
      IndexDirectory readHi addAlwaysFail emptyHash [] [⟨['b'], false, some ()⟩]
        = ([], some (IndexErr.walkFailed ())) :=
  ⟨(first_error_abort_no_rollback readHi addAlwaysFail emptyHash).1
      [] ['f', '.', 'g', 'o'] ['h', 'i'] [] ['h', 'i', '\n'] [] [] [] ()
      rfl (by decide) rfl rfl,
    (first_error_abort_no_rollback readHi addAlwaysFail emptyHash).2.1
      [] [] ⟨['a', '.', 'g', 'o'], false, none⟩ [] [] [] (IndexErr.addFailed ())
      rfl rfl (by decide) rfl,
    (first_error_abort_no_rollback readHi addAlwaysFail emptyHash).2.2
      [] [] ⟨['b'], false, some ()⟩ [] [] () rfl rfl⟩

end Rag
